import Mathlib

/-!
Shallow embedding of the numerical code in the `blog_posts` repository:

* `src/physics/3D Time Independent Schrödinger Equation.ipynb`:
  `schrodinger3D`, `create_hamiltonian`, and the `Vfun` closure defined
  inside `sho_eigenenergies`.
* `src/mathematics/Fourier Transforms in Python.ipynb`: `dft` and `idft`.

Machine floating point is idealised by exact rationals `ℚ` (for the matrix
assembly) and exact complex numbers `ℂ` (for the Fourier pair); sparse
matrices are embedded as total functions `ℕ → ℕ → ℚ` that vanish outside
the matrix extent, which makes `scipy.sparse.kron`'s flat indexing
(`kron A B` has entry `A[i / nB, j / nB] * B[i % nB, j % nB]`) direct.
The external eigensolver `scipy.sparse.linalg.eigs` is a parameter
(`Eigs`): the notebook delegates to it and any of its failures propagate.
-/

namespace BlogPosts

/-- Exceptions that the embedded Python code can raise.  `indexError`
models Python's `IndexError` (indexing past the end of an array);
`invalidArgument` models an explicit argument-validation error
(`ValueError` raised by a validity check before any work happens);
`eigsFailure` models any error raised from inside the external
`scipy.sparse.linalg.eigs` call (bad `k`, non-convergence, ...). -/
inductive PyError where
  | indexError
  | invalidArgument
  | eigsFailure
  deriving DecidableEq, Repr

/-- `np.linspace(a, b, n)`: `n` evenly spaced rationals from `a` to `b`
inclusive, `x[i] = a + (b - a) * i / (n - 1)`.  For `n = 1` the quotient's
numerator is `0`, so the list is `[a]`, as in numpy. -/
def linspace (a b : ℚ) (n : ℕ) : List ℚ :=
  (List.range n).map (fun i : ℕ => a + (b - a) * (i : ℚ) / ((n : ℚ) - 1))

/-- `x[1] - x[0]` on a Python list/array: raises `IndexError` when the
array has fewer than two entries. -/
def step (x : List ℚ) : Except PyError ℚ :=
  match x with
  | x0 :: x1 :: _ => .ok (x1 - x0)
  | _ => .error .indexError

/-- `create_hamiltonian(Nx, dx)` from the notebook:
`H = sparse.eye(Nx) * 2`, then `H[i, i+1] = H[i+1, i] = -1` for
`i in range(Nx - 1)`, then `H = H / dx**2`.  Entry-wise (zero outside
the `N × N` extent): diagonal `2 / dx²`, entries at offsets `±1` equal
`-1 / dx²`, everything else `0`. -/
def create_hamiltonian (N : ℕ) (dx : ℚ) : ℕ → ℕ → ℚ := fun i j =>
  (if i = j ∧ i < N then 2
   else if (j = i + 1 ∨ i = j + 1) ∧ i < N ∧ j < N then -1
   else 0) / dx ^ 2

/-- `sparse.eye(N)` as a total function, zero outside the extent. -/
def eye (N : ℕ) : ℕ → ℕ → ℚ := fun i j =>
  if i = j ∧ i < N then 1 else 0

/-- `scipy.sparse.kron(A, B)` for a right factor of extent `nB × nB`,
on flattened indices: entry `(i, j)` is `A[i / nB, j / nB] * B[i % nB, j % nB]`,
so the right factor `B` varies along the *inner* (fastest) index. -/
def kron (nB : ℕ) (A B : ℕ → ℕ → ℚ) : ℕ → ℕ → ℚ := fun i j =>
  A (i / nB) (j / nB) * B (i % nB) (j % nB)

/-- Entry-wise sum of two embedded matrices. -/
def matAdd (A B : ℕ → ℕ → ℚ) : ℕ → ℕ → ℚ := fun i j => A i j + B i j

/-- The kinetic part of the 3-D Hamiltonian, exactly as assembled by
`schrodinger3D`:
`Hxy = kron(Iy, Hx) + kron(Hy, Ix)`, `Ixy = kron(Iy, Ix)`,
`H = kron(Iz, Hxy) + kron(Hz, Ixy)`.
The flat index therefore decomposes as `i = iz * (Nx * Ny) + iy * Nx + ix`:
x innermost, z outermost. -/
def hamiltonian3D (Nx Ny Nz : ℕ) (dx dy dz : ℚ) : ℕ → ℕ → ℚ :=
  let Hx := create_hamiltonian Nx dx
  let Hy := create_hamiltonian Ny dy
  let Hz := create_hamiltonian Nz dz
  let Hxy := matAdd (kron Nx (eye Ny) Hx) (kron Nx Hy (eye Nx))
  let Ixy := kron Nx (eye Ny) (eye Nx)
  matAdd (kron (Nx * Ny) (eye Nz) Hxy) (kron (Nx * Ny) Hz Ixy)

/-- The potential is an array of one scalar per flattened grid point;
we embed it, like the matrix rows, as a total function on flat indices. -/
def Potential3D : Type := List ℚ → List ℚ → List ℚ → List ℚ → (ℕ → ℚ)

/-- The result of `schrodinger3D`: `evl` alone when `findpsi` is false,
otherwise `evl, evt, x, y, z`. -/
inductive Schro3DResult where
  | evals (evl : List ℚ)
  | evalsPsi (evl : List ℚ) (evt : ℕ → ℕ → ℚ) (x y z : List ℚ)

/-- The external eigensolver `scipy.sparse.linalg.eigs(H, k=neigs, sigma=E0)`:
given the assembled matrix, its extent, the requested eigenvalue count and
the shift, it either fails (raising from inside the library) or returns a
list of eigenvalues and an eigenvector matrix.  It is a parameter of the
embedding: the notebook treats it as an external collaborator. -/
def Eigs : Type :=
  (ℕ → ℕ → ℚ) → ℕ → ℕ → ℚ → Except PyError (List ℚ × (ℕ → ℕ → ℚ))

/-- The full Hamiltonian `schrodinger3D` assembles before calling the
eigensolver: the Kronecker-combined kinetic operator with
`H[i, i] = H[i, i] + V[i]` applied for `i in range(Nx * Ny * Nz)`,
where `V = Vfun3D(x, y, z, params)` and `dx = x[1] - x[0]` etc. -/
def assembleH (Vfun3D : Potential3D)
    (xmin xmax : ℚ) (Nx : ℕ) (ymin ymax : ℚ) (Ny : ℕ)
    (zmin zmax : ℚ) (Nz : ℕ) (params : List ℚ) : ℕ → ℕ → ℚ :=
  let x := linspace xmin xmax Nx
  let y := linspace ymin ymax Ny
  let z := linspace zmin zmax Nz
  let dx := x.getD 1 0 - x.getD 0 0
  let dy := y.getD 1 0 - y.getD 0 0
  let dz := z.getD 1 0 - z.getD 0 0
  let V := Vfun3D x y z params
  let H := hamiltonian3D Nx Ny Nz dx dy dz
  fun i j => if i = j ∧ i < Nx * Ny * Nz then H i j + V i else H i j

/-- `schrodinger3D` from the notebook, step for step: build the three
`linspace` grids, derive each step size as `x[1] - x[0]` (raising
`IndexError` when an axis has fewer than two points), evaluate the
potential, assemble the Hamiltonian by Kronecker products, add the
potential on the diagonal, hand the matrix to the external eigensolver,
and return either the eigenvalues alone or together with the
eigenvectors and the grids.  There is no explicit validation of `neigs`
or of the point counts anywhere in the body. -/
def schrodinger3D (eigs : Eigs) (Vfun3D : Potential3D)
    (xmin xmax : ℚ) (Nx : ℕ) (ymin ymax : ℚ) (Ny : ℕ)
    (zmin zmax : ℚ) (Nz : ℕ) (params : List ℚ) (neigs : ℕ)
    (E0 : ℚ) (findpsi : Bool) : Except PyError Schro3DResult := do
  let x := linspace xmin xmax Nx
  let _dx ← step x
  let y := linspace ymin ymax Ny
  let _dy ← step y
  let z := linspace zmin zmax Nz
  let _dz ← step z
  let H := assembleH Vfun3D xmin xmax Nx ymin ymax Ny zmin zmax Nz params
  let (evl, evt) ← eigs H (Nx * Ny * Nz) neigs E0
  if findpsi = false then
    return .evals evl
  else
    return .evalsPsi evl evt x y z

/-- The `Vfun` closure defined inside `sho_eigenenergies`.  The source
fills `V` by three nested loops, `i` over `X` outermost, `k` over `Z`
innermost, with a running index `vindex = i * (Ny * Nz) + j * Nz + k`:

    for i in range(Nx):
      for j in range(Ny):
        for k in range(Nz):
          V[vindex] = params[0]*X[i]**2 + params[1]*Y[j]**2 + params[2]*Z[k]**2
          vindex = vindex + 1

As a function of the flat index `v` this is the Euclidean decomposition
`i = v / (Ny * Nz)`, `j = v / Nz % Ny`, `k = v % Nz` (the lemma
`shoVfun_encode` below checks this against the loop's own indexing). -/
def shoVfun : Potential3D := fun X Y Z params v =>
  let Ny := Y.length
  let Nz := Z.length
  params.getD 0 0 * (X.getD (v / (Ny * Nz)) 0) ^ 2
    + params.getD 1 0 * (Y.getD (v / Nz % Ny) 0) ^ 2
    + params.getD 2 0 * (Z.getD (v % Nz) 0) ^ 2

/-- The same potential sampled with the axis nesting reversed (`k` over
`Z` outermost, `i` over `X` innermost, `vindex = k * (Nx * Ny) + j * Nx + i`),
which is the flattening order of the Kronecker-built operator's basis. -/
def shoVfunRev : Potential3D := fun X Y Z params v =>
  let Nx := X.length
  let Ny := Y.length
  params.getD 0 0 * (X.getD (v % Nx) 0) ^ 2
    + params.getD 1 0 * (Y.getD (v / Nx % Ny) 0) ^ 2
    + params.getD 2 0 * (Z.getD (v / (Nx * Ny)) 0) ^ 2

/-- The coordinates of the grid point that basis vector `v` of the
Kronecker-built operator represents: `x` varies along the innermost
index, `z` along the outermost (`v = iz * (Nx * Ny) + iy * Nx + ix`);
justified against `hamiltonian3D` by `hamiltonian3D_apply` below. -/
def kronBasisPoint (X Y Z : List ℚ) (v : ℕ) : ℚ × ℚ × ℚ :=
  (X.getD (v % X.length) 0,
   Y.getD (v / X.length % Y.length) 0,
   Z.getD (v / (X.length * Y.length)) 0)

/-- The harmonic potential of `sho_eigenenergies` evaluated at the grid
point that basis vector `v` of the Kronecker-built operator represents. -/
def kronBasisPotential (X Y Z : List ℚ) (params : List ℚ) (v : ℕ) : ℚ :=
  params.getD 0 0 * (kronBasisPoint X Y Z v).1 ^ 2
    + params.getD 1 0 * (kronBasisPoint X Y Z v).2.1 ^ 2
    + params.getD 2 0 * (kronBasisPoint X Y Z v).2.2 ^ 2

/-- A concrete, deterministic stand-in for `scipy.sparse.linalg.eigs`,
used only to instantiate theorems whose statements quantify over the
solver: it enforces the library's documented argument requirement
`0 < k < n - 1` and otherwise returns a fixed dummy decomposition. -/
def eigsModel : Eigs := fun _H n k _sigma =>
  if 0 < k ∧ k + 1 < n then .ok (List.replicate k 0, fun _ _ => 0)
  else .error .eigsFailure

/-- `dft(X)` from the Fourier notebook: `x[n] = np.dot(X, np.exp(1j * 2 * np.pi * K * n / N))`
for `n in range(N)`, `K = np.arange(N)`, `N = len(X)`. -/
noncomputable def dft (X : List ℂ) : List ℂ :=
  (List.range X.length).map (fun n : ℕ =>
    ∑ k ∈ Finset.range X.length,
      X.getD k 0 * Complex.exp (Complex.I * 2 * Real.pi * (k : ℂ) * (n : ℂ) / (X.length : ℂ)))

/-- `idft(X)` from the Fourier notebook: the same dot products with the
opposite sign in the exponent, and the whole array divided by `N` at the
end (`return x / N`). -/
noncomputable def idft (X : List ℂ) : List ℂ :=
  ((List.range X.length).map (fun n : ℕ =>
    ∑ k ∈ Finset.range X.length,
      X.getD k 0 * Complex.exp (-Complex.I * 2 * Real.pi * (k : ℂ) * (n : ℂ) / (X.length : ℂ)))).map
    (fun c => c / (X.length : ℂ))

/-! ### Basic lemmas about the grid construction -/

lemma linspace_length (a b : ℚ) (n : ℕ) : (linspace a b n).length = n := by
  rw [linspace, List.length_map, List.length_range]

lemma linspace_getD (a b : ℚ) (n : ℕ) (i : ℕ) (hi : i < n) :
    (linspace a b n).getD i 0 = a + (b - a) * i / ((n : ℚ) - 1) := by
  rw [linspace, List.getD_eq_getElem?_getD, List.getElem?_map, List.getElem?_range hi]
  rfl

lemma step_eq_of_two_le (x : List ℚ) (hx : 2 ≤ x.length) :
    step x = .ok (x.getD 1 0 - x.getD 0 0) := by
  match x, hx with
  | x0 :: x1 :: rest, _ => rfl

lemma step_err_of_lt_two (x : List ℚ) (hx : x.length < 2) :
    step x = .error .indexError := by
  match x, hx with
  | [], _ => rfl
  | [x0], _ => rfl

lemma step_linspace (a b : ℚ) (n : ℕ) (hn : 2 ≤ n) :
    step (linspace a b n) = .ok ((b - a) / ((n : ℚ) - 1)) := by
  rw [step_eq_of_two_le _ (by rw [linspace_length]; exact hn),
    linspace_getD a b n 1 (by omega), linspace_getD a b n 0 (by omega)]
  push_cast
  ring_nf

lemma step_linspace_err (a b : ℚ) (n : ℕ) (hn : n < 2) :
    step (linspace a b n) = .error .indexError :=
  step_err_of_lt_two _ (by rw [linspace_length]; exact hn)

/-! ### Basic lemmas about the matrix pieces -/

lemma eye_symm (N i j : ℕ) : eye N i j = eye N j i := by
  unfold eye
  split_ifs <;> first | rfl | omega

lemma eye_diag (N i : ℕ) (hi : i < N) : eye N i i = 1 := by
  simp [eye, hi]

lemma eye_eq_zero (N i j : ℕ) (h : N ≤ i ∨ N ≤ j) : eye N i j = 0 := by
  unfold eye
  split_ifs <;> first | rfl | omega

lemma create_hamiltonian_symm (N : ℕ) (dx : ℚ) (i j : ℕ) :
    create_hamiltonian N dx i j = create_hamiltonian N dx j i := by
  unfold create_hamiltonian
  split_ifs <;> first | rfl | omega

lemma create_hamiltonian_eq_zero (N : ℕ) (dx : ℚ) (i j : ℕ) (h : N ≤ i ∨ N ≤ j) :
    create_hamiltonian N dx i j = 0 := by
  unfold create_hamiltonian
  split_ifs with h1 h2
  · omega
  · omega
  · exact zero_div _

lemma create_hamiltonian_diag (N : ℕ) (dx : ℚ) (i : ℕ) (hi : i < N) :
    create_hamiltonian N dx i i = 2 / dx ^ 2 := by
  simp [create_hamiltonian, hi]

/-- The entry of the Kronecker-assembled kinetic operator, for every pair
of flat indices: the operator acts through the coordinates
`ix = v % Nx`, `iy = v / Nx % Ny`, `iz = v / (Nx * Ny)`, i.e. x is the
innermost (fastest) axis of the basis ordering and z the outermost. -/
lemma hamiltonian3D_apply (Nx Ny Nz : ℕ) (dx dy dz : ℚ) (v w : ℕ) :
    hamiltonian3D Nx Ny Nz dx dy dz v w =
      eye Nz (v / (Nx * Ny)) (w / (Nx * Ny)) * eye Ny (v / Nx % Ny) (w / Nx % Ny)
          * create_hamiltonian Nx dx (v % Nx) (w % Nx)
        + eye Nz (v / (Nx * Ny)) (w / (Nx * Ny))
          * create_hamiltonian Ny dy (v / Nx % Ny) (w / Nx % Ny) * eye Nx (v % Nx) (w % Nx)
        + create_hamiltonian Nz dz (v / (Nx * Ny)) (w / (Nx * Ny))
          * eye Ny (v / Nx % Ny) (w / Nx % Ny) * eye Nx (v % Nx) (w % Nx) := by
  simp only [hamiltonian3D, matAdd, kron, Nat.mod_mul_right_mod, Nat.mod_mul_right_div_self]
  ring

lemma hamiltonian3D_symm (Nx Ny Nz : ℕ) (dx dy dz : ℚ) (v w : ℕ) :
    hamiltonian3D Nx Ny Nz dx dy dz v w = hamiltonian3D Nx Ny Nz dx dy dz w v := by
  rw [hamiltonian3D_apply, hamiltonian3D_apply,
    eye_symm Nz (v / (Nx * Ny)), eye_symm Ny (v / Nx % Ny), eye_symm Nx (v % Nx),
    create_hamiltonian_symm Nx dx (v % Nx), create_hamiltonian_symm Ny dy (v / Nx % Ny),
    create_hamiltonian_symm Nz dz (v / (Nx * Ny))]

lemma hamiltonian3D_eq_zero (Nx Ny Nz : ℕ) (dx dy dz : ℚ) (v w : ℕ)
    (h : Nx * Ny * Nz ≤ v ∨ Nx * Ny * Nz ≤ w) :
    hamiltonian3D Nx Ny Nz dx dy dz v w = 0 := by
  rw [hamiltonian3D_apply]
  rcases Nat.eq_zero_or_pos Nx with hNx | hNx
  · rw [create_hamiltonian_eq_zero Nx dx (v % Nx) (w % Nx) (Or.inl (by omega)),
      eye_eq_zero Nx (v % Nx) (w % Nx) (Or.inl (by omega))]
    ring
  rcases Nat.eq_zero_or_pos Ny with hNy | hNy
  · rw [create_hamiltonian_eq_zero Ny dy (v / Nx % Ny) (w / Nx % Ny) (Or.inl (by omega)),
      eye_eq_zero Ny (v / Nx % Ny) (w / Nx % Ny) (Or.inl (by omega))]
    ring
  rcases Nat.eq_zero_or_pos Nz with hNz | hNz
  · rw [create_hamiltonian_eq_zero Nz dz (v / (Nx * Ny)) (w / (Nx * Ny)) (Or.inl (by simp [hNz])),
      eye_eq_zero Nz (v / (Nx * Ny)) (w / (Nx * Ny)) (Or.inl (by simp [hNz]))]
    ring
  rcases h with h | h
  · have ha : Nz ≤ v / (Nx * Ny) :=
      (Nat.le_div_iff_mul_le (Nat.mul_pos hNx hNy)).2 (by rw [Nat.mul_comm]; exact h)
    rw [create_hamiltonian_eq_zero Nz dz (v / (Nx * Ny)) (w / (Nx * Ny)) (Or.inl ha),
      eye_eq_zero Nz (v / (Nx * Ny)) (w / (Nx * Ny)) (Or.inl ha)]
    ring
  · have ha : Nz ≤ w / (Nx * Ny) :=
      (Nat.le_div_iff_mul_le (Nat.mul_pos hNx hNy)).2 (by rw [Nat.mul_comm]; exact h)
    rw [create_hamiltonian_eq_zero Nz dz (v / (Nx * Ny)) (w / (Nx * Ny)) (Or.inr ha),
      eye_eq_zero Nz (v / (Nx * Ny)) (w / (Nx * Ny)) (Or.inr ha)]
    ring

lemma hamiltonian3D_diag (Nx Ny Nz : ℕ) (dx dy dz : ℚ) (v : ℕ) (hv : v < Nx * Ny * Nz) :
    hamiltonian3D Nx Ny Nz dx dy dz v v =
      create_hamiltonian Nx dx (v % Nx) (v % Nx)
        + create_hamiltonian Ny dy (v / Nx % Ny) (v / Nx % Ny)
        + create_hamiltonian Nz dz (v / (Nx * Ny)) (v / (Nx * Ny)) := by
  have hNx : 0 < Nx := by
    rcases Nat.eq_zero_or_pos Nx with h | h
    · subst h; simp at hv
    · exact h
  have hNy : 0 < Ny := by
    rcases Nat.eq_zero_or_pos Ny with h | h
    · subst h; simp at hv
    · exact h
  have hNz : 0 < Nz := by
    rcases Nat.eq_zero_or_pos Nz with h | h
    · subst h; simp at hv
    · exact h
  have hx : v % Nx < Nx := Nat.mod_lt v hNx
  have hy : v / Nx % Ny < Ny := Nat.mod_lt _ hNy
  have hz : v / (Nx * Ny) < Nz :=
    (Nat.div_lt_iff_lt_mul (Nat.mul_pos hNx hNy)).2 (by rw [Nat.mul_comm (Nx * Ny) Nz] at hv; exact hv)
  rw [hamiltonian3D_apply, eye_diag Nz _ hz, eye_diag Ny _ hy, eye_diag Nx _ hx]
  ring

/-! ### How `schrodinger3D` runs: error cases and the delegation to `eigs` -/

/-- If any axis has fewer than two points, `schrodinger3D` stops with
`IndexError` while computing the corresponding step size, whatever the
eigensolver, potential, remaining arguments or `neigs` are. -/
lemma schrodinger3D_err_of_axis (eigs : Eigs) (Vfun3D : Potential3D)
    (xmin xmax : ℚ) (Nx : ℕ) (ymin ymax : ℚ) (Ny : ℕ) (zmin zmax : ℚ) (Nz : ℕ)
    (params : List ℚ) (neigs : ℕ) (E0 : ℚ) (findpsi : Bool)
    (h : Nx < 2 ∨ Ny < 2 ∨ Nz < 2) :
    schrodinger3D eigs Vfun3D xmin xmax Nx ymin ymax Ny zmin zmax Nz params neigs E0 findpsi
      = .error .indexError := by
  simp only [schrodinger3D]
  rcases Nat.lt_or_ge Nx 2 with hx | hx
  · rw [step_linspace_err xmin xmax Nx hx]; rfl
  rcases Nat.lt_or_ge Ny 2 with hy | hy
  · rw [step_linspace xmin xmax Nx hx, step_linspace_err ymin ymax Ny hy]; rfl
  rcases Nat.lt_or_ge Nz 2 with hz | hz
  · rw [step_linspace xmin xmax Nx hx, step_linspace ymin ymax Ny hy,
      step_linspace_err zmin zmax Nz hz]
    rfl
  omega

/-- With at least two points on every axis, `schrodinger3D` runs straight
through to the eigensolver: the result is exactly the eigensolver's answer
on the assembled Hamiltonian, post-processed according to `findpsi`.
In particular the body imposes no condition of its own on `neigs`. -/
lemma schrodinger3D_run (eigs : Eigs) (Vfun3D : Potential3D)
    (xmin xmax : ℚ) (Nx : ℕ) (ymin ymax : ℚ) (Ny : ℕ) (zmin zmax : ℚ) (Nz : ℕ)
    (params : List ℚ) (neigs : ℕ) (E0 : ℚ) (findpsi : Bool)
    (hx : 2 ≤ Nx) (hy : 2 ≤ Ny) (hz : 2 ≤ Nz) :
    schrodinger3D eigs Vfun3D xmin xmax Nx ymin ymax Ny zmin zmax Nz params neigs E0 findpsi
      = (eigs (assembleH Vfun3D xmin xmax Nx ymin ymax Ny zmin zmax Nz params)
          (Nx * Ny * Nz) neigs E0).bind
          (fun p => if findpsi = false then .ok (.evals p.1)
            else .ok (.evalsPsi p.1 p.2 (linspace xmin xmax Nx) (linspace ymin ymax Ny)
              (linspace zmin zmax Nz))) := by
  simp only [schrodinger3D]
  rw [step_linspace xmin xmax Nx hx, step_linspace ymin ymax Ny hy,
    step_linspace zmin zmax Nz hz]
  cases hg : eigs (assembleH Vfun3D xmin xmax Nx ymin ymax Ny zmin zmax Nz params)
      (Nx * Ny * Nz) neigs E0 with
  | error e => simp [Except.bind, hg, Bind.bind]
  | ok p =>
    cases p with
    | mk evl evt => cases findpsi <;> simp [Except.bind, hg, Bind.bind, Pure.pure, Except.pure]

/-! ### Index arithmetic for the two flattening orders -/

lemma vindex_div (Ny Nz i j k : ℕ) (hj : j < Ny) (hk : k < Nz) :
    (i * (Ny * Nz) + j * Nz + k) / (Ny * Nz) = i := by
  have hr : j * Nz + k < Ny * Nz := by
    have h1 : (j + 1) * Nz ≤ Ny * Nz := Nat.mul_le_mul_right Nz (by omega)
    have h2 : (j + 1) * Nz = j * Nz + Nz := by ring
    omega
  have harr : i * (Ny * Nz) + j * Nz + k = j * Nz + k + Ny * Nz * i := by ring
  rw [harr, Nat.add_mul_div_left _ _ (by omega : 0 < Ny * Nz), Nat.div_eq_of_lt hr,
    Nat.zero_add]

lemma vindex_mod (Ny Nz i j k : ℕ) (hk : k < Nz) :
    (i * (Ny * Nz) + j * Nz + k) % Nz = k := by
  have harr : i * (Ny * Nz) + j * Nz + k = k + (i * Ny + j) * Nz := by ring
  rw [harr, Nat.add_mul_mod_self_right, Nat.mod_eq_of_lt hk]

lemma vindex_div_mod (Ny Nz i j k : ℕ) (hj : j < Ny) (hk : k < Nz) :
    (i * (Ny * Nz) + j * Nz + k) / Nz % Ny = j := by
  have harr : i * (Ny * Nz) + j * Nz + k = k + (i * Ny + j) * Nz := by ring
  rw [harr, Nat.add_mul_div_right _ _ (by omega : 0 < Nz), Nat.div_eq_of_lt hk,
    Nat.zero_add]
  have harr2 : i * Ny + j = j + i * Ny := by ring
  rw [harr2, Nat.add_mul_mod_self_right, Nat.mod_eq_of_lt hj]

/-- The decode-based `shoVfun` agrees with the source loop's own indexing:
at `vindex = i * (Ny * Nz) + j * Nz + k` (`i` outermost over `X`, `k`
innermost over `Z`) its value is
`params[0]*X[i]² + params[1]*Y[j]² + params[2]*Z[k]²`. -/
lemma shoVfun_encode (X Y Z params : List ℚ) (i j k : ℕ)
    (hi : i < X.length) (hj : j < Y.length) (hk : k < Z.length) :
    shoVfun X Y Z params (i * (Y.length * Z.length) + j * Z.length + k)
      = params.getD 0 0 * (X.getD i 0) ^ 2 + params.getD 1 0 * (Y.getD j 0) ^ 2
        + params.getD 2 0 * (Z.getD k 0) ^ 2 := by
  simp only [shoVfun]
  rw [vindex_div _ _ _ _ _ hj hk, vindex_mod _ _ _ _ _ hk, vindex_div_mod _ _ _ _ _ hj hk]

/-- The reverse-nested sampling agrees with its loop's indexing:
at `vindex = k * (Nx * Ny) + j * Nx + i` (`k` outermost over `Z`, `i`
innermost over `X`) its value is the potential of `(X[i], Y[j], Z[k])`. -/
lemma shoVfunRev_encode (X Y Z params : List ℚ) (i j k : ℕ)
    (hi : i < X.length) (hj : j < Y.length) (hk : k < Z.length) :
    shoVfunRev X Y Z params (k * (X.length * Y.length) + j * X.length + i)
      = params.getD 0 0 * (X.getD i 0) ^ 2 + params.getD 1 0 * (Y.getD j 0) ^ 2
        + params.getD 2 0 * (Z.getD k 0) ^ 2 := by
  simp only [shoVfunRev]
  have h1 : (k * (X.length * Y.length) + j * X.length + i) % X.length = i := by
    have harr : k * (X.length * Y.length) + j * X.length + i
        = i + (k * Y.length + j) * X.length := by ring
    rw [harr, Nat.add_mul_mod_self_right, Nat.mod_eq_of_lt hi]
  have h2 : (k * (X.length * Y.length) + j * X.length + i) / X.length % Y.length = j := by
    have harr : k * (X.length * Y.length) + j * X.length + i
        = i + (k * Y.length + j) * X.length := by ring
    rw [harr, Nat.add_mul_div_right _ _ (by omega : 0 < X.length), Nat.div_eq_of_lt hi,
      Nat.zero_add]
    have harr2 : k * Y.length + j = j + k * Y.length := by ring
    rw [harr2, Nat.add_mul_mod_self_right, Nat.mod_eq_of_lt hj]
  have h3 : (k * (X.length * Y.length) + j * X.length + i) / (X.length * Y.length) = k := by
    have hr : j * X.length + i < Y.length * X.length := by
      have ha : (j + 1) * X.length ≤ Y.length * X.length :=
        Nat.mul_le_mul_right X.length (by omega)
      have hb : (j + 1) * X.length = j * X.length + X.length := by ring
      omega
    have harr : k * (X.length * Y.length) + j * X.length + i
        = j * X.length + i + (X.length * Y.length) * k := by ring
    rw [harr, Nat.add_mul_div_left _ _ (Nat.mul_pos (by omega) (by omega)),
      Nat.div_eq_of_lt (by rw [Nat.mul_comm X.length Y.length]; exact hr), Nat.zero_add]
  rw [h1, h2, h3]

/-- `shoVfunRev` is, definitionally, the potential of the grid point that
the Kronecker-built operator associates with each basis index. -/
lemma shoVfunRev_eq_kronBasisPotential (X Y Z params : List ℚ) (v : ℕ) :
    shoVfunRev X Y Z params v = kronBasisPotential X Y Z params v := rfl

/-- On the square extent, the assembled full Hamiltonian is the kinetic
Kronecker operator plus the sampled potential on the diagonal. -/
lemma assembleH_diag (Vfun3D : Potential3D)
    (xmin xmax : ℚ) (Nx : ℕ) (ymin ymax : ℚ) (Ny : ℕ) (zmin zmax : ℚ) (Nz : ℕ)
    (params : List ℚ) (v : ℕ) (hv : v < Nx * Ny * Nz) :
    assembleH Vfun3D xmin xmax Nx ymin ymax Ny zmin zmax Nz params v v
      = hamiltonian3D Nx Ny Nz
          ((linspace xmin xmax Nx).getD 1 0 - (linspace xmin xmax Nx).getD 0 0)
          ((linspace ymin ymax Ny).getD 1 0 - (linspace ymin ymax Ny).getD 0 0)
          ((linspace zmin zmax Nz).getD 1 0 - (linspace zmin zmax Nz).getD 0 0) v v
        + Vfun3D (linspace xmin xmax Nx) (linspace ymin ymax Ny) (linspace zmin zmax Nz)
            params v := by
  simp only [assembleH]
  simp [hv]

/-- In the isotropic case (one coordinate list for all three axes, equal
`params` entries) the two nesting orders sample the same value at every
flat index, because the three squared terms just trade places. -/
lemma shoVfun_iso (X : List ℚ) (p : ℚ) (v : ℕ) :
    shoVfun X X X [p, p, p] v = shoVfunRev X X X [p, p, p] v := by
  have h0 : ([p, p, p] : List ℚ).getD 0 0 = p := rfl
  have h1 : ([p, p, p] : List ℚ).getD 1 0 = p := rfl
  have h2 : ([p, p, p] : List ℚ).getD 2 0 = p := rfl
  simp only [shoVfun, shoVfunRev]
  rw [h0, h1, h2]
  ring

/-! ## The claims -/

/-- C4: for every `N ≥ 2` and `dx ≠ 0`, `create_hamiltonian N dx` is the
`N × N` symmetric tridiagonal matrix with diagonal `2 / dx²`, offsets
`±1` equal to `-1 / dx²`, and every other entry — including the
wraparound corners `(0, N-1)` and `(N-1, 0)` when they are off the three
central diagonals — equal to `0` (Dirichlet boundaries, no wraparound);
for `N = 3`, `dx = 1` it is exactly `[[2,-1,0],[-1,2,-1],[0,-1,2]]`. -/
theorem create_hamiltonian_spec (N : ℕ) (dx : ℚ) (hN : 2 ≤ N) (hdx : dx ≠ 0) :
    (∀ i, i < N → create_hamiltonian N dx i i = 2 / dx ^ 2)
    ∧ (∀ i, i + 1 < N → create_hamiltonian N dx i (i + 1) = -1 / dx ^ 2
        ∧ create_hamiltonian N dx (i + 1) i = -1 / dx ^ 2)
    ∧ (∀ i j, i ≠ j → j ≠ i + 1 → i ≠ j + 1 → create_hamiltonian N dx i j = 0)
    ∧ (∀ i j, create_hamiltonian N dx i j = create_hamiltonian N dx j i)
    ∧ (3 ≤ N → create_hamiltonian N dx 0 (N - 1) = 0 ∧ create_hamiltonian N dx (N - 1) 0 = 0)
    ∧ (create_hamiltonian 3 1 0 0 = 2 ∧ create_hamiltonian 3 1 0 1 = -1
        ∧ create_hamiltonian 3 1 0 2 = 0 ∧ create_hamiltonian 3 1 1 0 = -1
        ∧ create_hamiltonian 3 1 1 1 = 2 ∧ create_hamiltonian 3 1 1 2 = -1
        ∧ create_hamiltonian 3 1 2 0 = 0 ∧ create_hamiltonian 3 1 2 1 = -1
        ∧ create_hamiltonian 3 1 2 2 = 2) := by
  refine ⟨fun i hi => create_hamiltonian_diag N dx i hi, ?_, ?_, create_hamiltonian_symm N dx,
    ?_, by norm_num [create_hamiltonian]⟩
  · intro i hi
    constructor
    · unfold create_hamiltonian
      rw [if_neg (by omega), if_pos (by omega)]
    · unfold create_hamiltonian
      rw [if_neg (by omega), if_pos (by omega)]
  · intro i j h1 h2 h3
    unfold create_hamiltonian
    rw [if_neg (by omega), if_neg (by omega)]
    exact zero_div _
  · intro h3
    constructor
    · unfold create_hamiltonian
      rw [if_neg (by omega), if_neg (by omega)]
      exact zero_div _
    · unfold create_hamiltonian
      rw [if_neg (by omega), if_neg (by omega)]
      exact zero_div _

/-- Witness for C4 at `N = 3`, `dx = 1`. -/
theorem create_hamiltonian_spec_witness :
    create_hamiltonian 3 1 0 0 = 2 / 1 ^ 2 ∧ create_hamiltonian 3 1 0 2 = 0 :=
  ⟨(create_hamiltonian_spec 3 1 (by norm_num) (by norm_num)).1 0 (by norm_num),
   (create_hamiltonian_spec 3 1 (by norm_num) (by norm_num)).2.2.1 0 2
     (by norm_num) (by norm_num) (by norm_num)⟩

/-- C3: the Kronecker tensor-sum combination used by `schrodinger3D`
(applied pairwise twice) yields, for all per-axis point counts and step
sizes, an operator supported on the square of size `Nx * Ny * Nz`,
symmetric, whose diagonal entry at each flat index is the sum of the
corresponding three 1-D diagonal entries. -/
theorem hamiltonian3D_tensor_sum_spec (Nx Ny Nz : ℕ) (dx dy dz : ℚ) :
    (∀ v w, Nx * Ny * Nz ≤ v ∨ Nx * Ny * Nz ≤ w →
        hamiltonian3D Nx Ny Nz dx dy dz v w = 0)
    ∧ (∀ v w, hamiltonian3D Nx Ny Nz dx dy dz v w = hamiltonian3D Nx Ny Nz dx dy dz w v)
    ∧ (∀ v, v < Nx * Ny * Nz →
        hamiltonian3D Nx Ny Nz dx dy dz v v =
          create_hamiltonian Nx dx (v % Nx) (v % Nx)
            + create_hamiltonian Ny dy (v / Nx % Ny) (v / Nx % Ny)
            + create_hamiltonian Nz dz (v / (Nx * Ny)) (v / (Nx * Ny))) :=
  ⟨fun v w h => hamiltonian3D_eq_zero Nx Ny Nz dx dy dz v w h,
   fun v w => hamiltonian3D_symm Nx Ny Nz dx dy dz v w,
   fun v hv => hamiltonian3D_diag Nx Ny Nz dx dy dz v hv⟩

/-- Witness for C3 on the `2 × 2 × 2` grid at flat index `5 = 1·4 + 0·2 + 1`. -/
theorem hamiltonian3D_tensor_sum_spec_witness :
    hamiltonian3D 2 2 2 1 1 1 5 5 =
      create_hamiltonian 2 1 1 1 + create_hamiltonian 2 1 0 0 + create_hamiltonian 2 1 1 1 :=
  (hamiltonian3D_tensor_sum_spec 2 2 2 1 1 1).2.2 5 (by norm_num)

/-- C7: for `count ≥ 2` the grid built by `schrodinger3D` is evenly
spaced from `min` to `max`, and the step it derives as `x[1] - x[0]`
equals `(max - min) / (count - 1)`. -/
theorem linspace_grid_spec (a b : ℚ) (n : ℕ) (hn : 2 ≤ n) :
    (linspace a b n).length = n
    ∧ (linspace a b n).getD 0 0 = a
    ∧ (linspace a b n).getD (n - 1) 0 = b
    ∧ (∀ i, i + 1 < n →
        (linspace a b n).getD (i + 1) 0 - (linspace a b n).getD i 0
          = (b - a) / ((n : ℚ) - 1))
    ∧ step (linspace a b n) = .ok ((b - a) / ((n : ℚ) - 1)) := by
  have hne : ((n : ℚ) - 1) ≠ 0 := by
    have h2 : (2 : ℚ) ≤ (n : ℚ) := by exact_mod_cast hn
    linarith
  refine ⟨linspace_length a b n, ?_, ?_, ?_, step_linspace a b n hn⟩
  · rw [linspace_getD a b n 0 (by omega)]
    simp
  · rw [linspace_getD a b n (n - 1) (by omega), Nat.cast_sub (by omega : 1 ≤ n),
      Nat.cast_one, mul_div_assoc, div_self hne, mul_one]
    ring
  · intro i hi
    rw [linspace_getD a b n (i + 1) (by omega), linspace_getD a b n i (by omega)]
    push_cast
    field_simp
    ring

/-- Witness for C7 with `a = 0`, `b = 1`, `n = 3`. -/
theorem linspace_grid_spec_witness :
    (linspace 0 1 3).length = 3
    ∧ (linspace 0 1 3).getD 0 0 = 0
    ∧ (linspace 0 1 3).getD (3 - 1) 0 = 1
    ∧ step (linspace 0 1 3) = .ok ((1 - 0) / ((3 : ℚ) - 1)) := by
  obtain ⟨h1, h2, h3, _h4, h5⟩ := linspace_grid_spec 0 1 3 (by norm_num)
  exact ⟨h1, h2, h3, h5⟩

/-- C5: on a successful run, `findpsi = false` returns exactly the
eigenvalues and nothing else, while `findpsi = true` returns the
eigenvalues, the eigenvector matrix and the three grids actually used. -/
theorem schrodinger3D_return_spec (eigs : Eigs) (Vfun3D : Potential3D)
    (xmin xmax : ℚ) (Nx : ℕ) (ymin ymax : ℚ) (Ny : ℕ) (zmin zmax : ℚ) (Nz : ℕ)
    (params : List ℚ) (neigs : ℕ) (E0 : ℚ)
    (hx : 2 ≤ Nx) (hy : 2 ≤ Ny) (hz : 2 ≤ Nz)
    (evl : List ℚ) (evt : ℕ → ℕ → ℚ)
    (heigs : eigs (assembleH Vfun3D xmin xmax Nx ymin ymax Ny zmin zmax Nz params)
        (Nx * Ny * Nz) neigs E0 = .ok (evl, evt)) :
    schrodinger3D eigs Vfun3D xmin xmax Nx ymin ymax Ny zmin zmax Nz params neigs E0 false
      = .ok (.evals evl)
    ∧ schrodinger3D eigs Vfun3D xmin xmax Nx ymin ymax Ny zmin zmax Nz params neigs E0 true
      = .ok (.evalsPsi evl evt (linspace xmin xmax Nx) (linspace ymin ymax Ny)
          (linspace zmin zmax Nz)) := by
  constructor
  · rw [schrodinger3D_run eigs Vfun3D xmin xmax Nx ymin ymax Ny zmin zmax Nz params neigs E0
      false hx hy hz, heigs]
    rfl
  · rw [schrodinger3D_run eigs Vfun3D xmin xmax Nx ymin ymax Ny zmin zmax Nz params neigs E0
      true hx hy hz, heigs]
    rfl

/-- Witness for C5 on a `2 × 2 × 2` grid with the concrete solver model. -/
theorem schrodinger3D_return_spec_witness :
    schrodinger3D eigsModel shoVfun 0 1 2 0 1 2 0 1 2 [1, 1, 1] 1 0 false
      = .ok (.evals [0]) :=
  (schrodinger3D_return_spec eigsModel shoVfun 0 1 2 0 1 2 0 1 2 [1, 1, 1] 1 0
    (by norm_num) (by norm_num) (by norm_num) [0] (fun _ _ => 0) rfl).1

/-- C6: two runs of the embedded `schrodinger3D` on identical inputs
(with the same eigensolver model — the external solver is the only
source of nondeterminism the spec allows) give identical results. -/
theorem schrodinger3D_deterministic (eigs : Eigs) (Vfun3D : Potential3D)
    (xmin xmax : ℚ) (Nx : ℕ) (ymin ymax : ℚ) (Ny : ℕ) (zmin zmax : ℚ) (Nz : ℕ)
    (params : List ℚ) (neigs : ℕ) (E0 : ℚ) (findpsi : Bool)
    (xmin' xmax' : ℚ) (Nx' : ℕ) (ymin' ymax' : ℚ) (Ny' : ℕ) (zmin' zmax' : ℚ) (Nz' : ℕ)
    (params' : List ℚ) (neigs' : ℕ) (E0' : ℚ) (findpsi' : Bool)
    (h1 : xmin = xmin') (h2 : xmax = xmax') (h3 : Nx = Nx')
    (h4 : ymin = ymin') (h5 : ymax = ymax') (h6 : Ny = Ny')
    (h7 : zmin = zmin') (h8 : zmax = zmax') (h9 : Nz = Nz')
    (h10 : params = params') (h11 : neigs = neigs') (h12 : E0 = E0')
    (h13 : findpsi = findpsi') :
    schrodinger3D eigs Vfun3D xmin xmax Nx ymin ymax Ny zmin zmax Nz params neigs E0 findpsi
      = schrodinger3D eigs Vfun3D xmin' xmax' Nx' ymin' ymax' Ny' zmin' zmax' Nz'
          params' neigs' E0' findpsi' := by
  subst h1 h2 h3 h4 h5 h6 h7 h8 h9 h10 h11 h12 h13
  rfl

/-- Witness for C6: two identical concrete invocations coincide. -/
theorem schrodinger3D_deterministic_witness :
    schrodinger3D eigsModel shoVfun 0 1 2 0 1 2 0 1 2 [1, 1, 1] 1 0 false
      = schrodinger3D eigsModel shoVfun 0 1 2 0 1 2 0 1 2 [1, 1, 1] 1 0 false :=
  schrodinger3D_deterministic eigsModel shoVfun 0 1 2 0 1 2 0 1 2 [1, 1, 1] 1 0 false
    0 1 2 0 1 2 0 1 2 [1, 1, 1] 1 0 false
    rfl rfl rfl rfl rfl rfl rfl rfl rfl rfl rfl rfl rfl

/-- C9: when an axis has exactly one point, `x[1] - x[0]` indexes past
the end of the one-element grid, so the call stops with an out-of-range
index error before any matrix is assembled; and the body has no validity
check of its own on `neigs` or the point counts — with usable grids the
outcome for every `neigs` is whatever the eigensolver returns on the
assembled matrix. -/
theorem schrodinger3D_no_validation_spec (eigs : Eigs) (Vfun3D : Potential3D)
    (xmin xmax : ℚ) (Nx : ℕ) (ymin ymax : ℚ) (Ny : ℕ) (zmin zmax : ℚ) (Nz : ℕ)
    (params : List ℚ) (neigs : ℕ) (E0 : ℚ) (findpsi : Bool) :
    (Nx = 1 ∨ Ny = 1 ∨ Nz = 1 →
      schrodinger3D eigs Vfun3D xmin xmax Nx ymin ymax Ny zmin zmax Nz params neigs E0 findpsi
        = .error .indexError)
    ∧ (2 ≤ Nx → 2 ≤ Ny → 2 ≤ Nz →
      schrodinger3D eigs Vfun3D xmin xmax Nx ymin ymax Ny zmin zmax Nz params neigs E0 findpsi
        = (eigs (assembleH Vfun3D xmin xmax Nx ymin ymax Ny zmin zmax Nz params)
            (Nx * Ny * Nz) neigs E0).bind
            (fun p => if findpsi = false then .ok (.evals p.1)
              else .ok (.evalsPsi p.1 p.2 (linspace xmin xmax Nx) (linspace ymin ymax Ny)
                (linspace zmin zmax Nz)))) :=
  ⟨fun h => schrodinger3D_err_of_axis eigs Vfun3D xmin xmax Nx ymin ymax Ny zmin zmax Nz
      params neigs E0 findpsi (by omega),
   fun hx hy hz => schrodinger3D_run eigs Vfun3D xmin xmax Nx ymin ymax Ny zmin zmax Nz
      params neigs E0 findpsi hx hy hz⟩

/-- Witness for C9: a one-point x axis raises the index error. -/
theorem schrodinger3D_no_validation_spec_witness :
    schrodinger3D eigsModel shoVfun 0 1 1 0 1 2 0 1 2 [1, 1, 1] 1 0 false
      = .error .indexError :=
  (schrodinger3D_no_validation_spec eigsModel shoVfun 0 1 1 0 1 2 0 1 2
    [1, 1, 1] 1 0 false).1 (Or.inl rfl)

/-- C2 counterexample: a one-point axis makes the call fail with the
index error raised by `x[1]`, which is not an invalid-argument
validation error; and with sound grids an oversized `neigs = 100`
(matrix dimension `8`) sails through the body into the eigensolver,
whose own failure is the result — nothing is signaled before assembly. -/
theorem schrodinger3D_invalid_arg_cex :
    schrodinger3D eigsModel shoVfun 0 1 1 0 1 2 0 1 2 [1, 1, 1] 1 0 false
      = .error .indexError
    ∧ PyError.indexError ≠ PyError.invalidArgument
    ∧ schrodinger3D eigsModel shoVfun 0 1 2 0 1 2 0 1 2 [1, 1, 1] 100 0 false
      = .error .eigsFailure
    ∧ eigsModel (assembleH shoVfun 0 1 2 0 1 2 0 1 2 [1, 1, 1]) (2 * 2 * 2) 100 0
      = .error .eigsFailure := by
  refine ⟨schrodinger3D_err_of_axis eigsModel shoVfun 0 1 1 0 1 2 0 1 2 [1, 1, 1] 1 0 false
    (by norm_num), by decide, ?_, rfl⟩
  rw [schrodinger3D_run eigsModel shoVfun 0 1 2 0 1 2 0 1 2 [1, 1, 1] 100 0 false
    (by norm_num) (by norm_num) (by norm_num)]
  rfl

/-- C2 amended: an axis with fewer than two points makes the call fail
before matrix assembly but with an out-of-range index error, not an
invalid-argument error; an eigenvalue count exceeding the matrix
dimension is not checked by `schrodinger3D` at all — with usable grids
the call always proceeds through assembly and hands `neigs` to the
eigensolver, whose verdict is the result. -/
theorem schrodinger3D_error_handling_amended (eigs : Eigs) (Vfun3D : Potential3D)
    (xmin xmax : ℚ) (Nx : ℕ) (ymin ymax : ℚ) (Ny : ℕ) (zmin zmax : ℚ) (Nz : ℕ)
    (params : List ℚ) (neigs : ℕ) (E0 : ℚ) (findpsi : Bool) :
    (Nx < 2 ∨ Ny < 2 ∨ Nz < 2 →
      schrodinger3D eigs Vfun3D xmin xmax Nx ymin ymax Ny zmin zmax Nz params neigs E0 findpsi
        = .error .indexError)
    ∧ (2 ≤ Nx → 2 ≤ Ny → 2 ≤ Nz →
      schrodinger3D eigs Vfun3D xmin xmax Nx ymin ymax Ny zmin zmax Nz params neigs E0 findpsi
        = (eigs (assembleH Vfun3D xmin xmax Nx ymin ymax Ny zmin zmax Nz params)
            (Nx * Ny * Nz) neigs E0).bind
            (fun p => if findpsi = false then .ok (.evals p.1)
              else .ok (.evalsPsi p.1 p.2 (linspace xmin xmax Nx) (linspace ymin ymax Ny)
                (linspace zmin zmax Nz)))) :=
  ⟨fun h => schrodinger3D_err_of_axis eigs Vfun3D xmin xmax Nx ymin ymax Ny zmin zmax Nz
      params neigs E0 findpsi h,
   fun hx hy hz => schrodinger3D_run eigs Vfun3D xmin xmax Nx ymin ymax Ny zmin zmax Nz
      params neigs E0 findpsi hx hy hz⟩

/-- Witness for the amended C2: a zero-point y axis raises the index error. -/
theorem schrodinger3D_error_handling_amended_witness :
    schrodinger3D eigsModel shoVfun 0 1 2 0 1 0 0 1 2 [1, 1, 1] 1 0 false
      = .error .indexError :=
  (schrodinger3D_error_handling_amended eigsModel shoVfun 0 1 2 0 1 0 0 1 2
    [1, 1, 1] 1 0 false).1 (by norm_num)

/-- C1 counterexample: on the `2 × 2 × 2` grid with `x = [0,1]`,
`y = [0,2]`, `z = [0,4]` and `params = [1,1,1]`, the diagonal update at
flat index `1` adds `V[1] = z[1]² = 16` — the potential sampled with `z`
innermost — whereas basis vector `1` of the Kronecker-built operator is
the grid point `(x[1], y[0], z[0])` with potential `1`.  The assembled
`H[1,1]` is therefore not the kinetic entry plus the potential of grid
point `1`. -/
theorem shoVfun_flattening_cex :
    assembleH shoVfun 0 1 2 0 2 2 0 4 2 [1, 1, 1] 1 1
      ≠ hamiltonian3D 2 2 2 1 2 4 1 1
        + kronBasisPotential (linspace 0 1 2) (linspace 0 2 2) (linspace 0 4 2) [1, 1, 1] 1
    ∧ shoVfun (linspace 0 1 2) (linspace 0 2 2) (linspace 0 4 2) [1, 1, 1] 1 = 16
    ∧ kronBasisPotential (linspace 0 1 2) (linspace 0 2 2) (linspace 0 4 2) [1, 1, 1] 1
      = 1 := by
  have hx : linspace 0 1 2 = [0, 1] := by norm_num [linspace, List.range_succ]
  have hy : linspace 0 2 2 = [0, 2] := by norm_num [linspace, List.range_succ]
  have hz : linspace 0 4 2 = [0, 4] := by norm_num [linspace, List.range_succ]
  have hV : shoVfun (linspace 0 1 2) (linspace 0 2 2) (linspace 0 4 2) [1, 1, 1] 1 = 16 := by
    rw [hx, hy, hz]
    norm_num [shoVfun, List.getD]
  have hB : kronBasisPotential (linspace 0 1 2) (linspace 0 2 2) (linspace 0 4 2)
      [1, 1, 1] 1 = 1 := by
    rw [hx, hy, hz]
    norm_num [kronBasisPotential, kronBasisPoint, List.getD]
  refine ⟨?_, hV, hB⟩
  have hdx : (linspace 0 1 2).getD 1 0 - (linspace 0 1 2).getD 0 0 = 1 := by
    rw [hx]; norm_num [List.getD]
  have hdy : (linspace 0 2 2).getD 1 0 - (linspace 0 2 2).getD 0 0 = 2 := by
    rw [hy]; norm_num [List.getD]
  have hdz : (linspace 0 4 2).getD 1 0 - (linspace 0 4 2).getD 0 0 = 4 := by
    rw [hz]; norm_num [List.getD]
  rw [assembleH_diag shoVfun 0 1 2 0 2 2 0 4 2 [1, 1, 1] 1 (by norm_num),
    hdx, hdy, hdz, hV, hB]
  intro hc
  have h16 : (16 : ℚ) = 1 := add_left_cancel hc
  norm_num at h16

/-- C1 amended: the `Vfun` of `sho_eigenenergies` flattens with `x`
outermost and `z` innermost — `V[i*(Ny*Nz) + j*Nz + k]` is the potential
of `(X[i], Y[j], Z[k])` — while the Kronecker-built operator's basis
flattens with `x` innermost and `z` outermost, putting that grid point
at flat index `k*(Nx*Ny) + j*Nx + i`.  The diagonal update therefore
adds to basis vector `v` the potential of the grid point with `x` and
`z` axis indices transposed, which agrees with the potential of grid
point `v` itself only when the two orders coincide (as in the isotropic
example), not for every choice of bounds and point counts. -/
theorem shoVfun_flattening_amended (X Y Z params : List ℚ) (i j k : ℕ)
    (hi : i < X.length) (hj : j < Y.length) (hk : k < Z.length) :
    shoVfun X Y Z params (i * (Y.length * Z.length) + j * Z.length + k)
      = params.getD 0 0 * (X.getD i 0) ^ 2 + params.getD 1 0 * (Y.getD j 0) ^ 2
        + params.getD 2 0 * (Z.getD k 0) ^ 2
    ∧ kronBasisPotential X Y Z params (k * (X.length * Y.length) + j * X.length + i)
      = params.getD 0 0 * (X.getD i 0) ^ 2 + params.getD 1 0 * (Y.getD j 0) ^ 2
        + params.getD 2 0 * (Z.getD k 0) ^ 2
    ∧ shoVfun X Y Z params (i * (Y.length * Z.length) + j * Z.length + k)
      = kronBasisPotential X Y Z params (k * (X.length * Y.length) + j * X.length + i) := by
  have h1 := shoVfun_encode X Y Z params i j k hi hj hk
  have h2 := shoVfunRev_encode X Y Z params i j k hi hj hk
  rw [shoVfunRev_eq_kronBasisPotential] at h2
  exact ⟨h1, h2, by rw [h1, h2]⟩

/-- Witness for the amended C1 at `X = [0,1]`, `Y = [0,2]`, `Z = [0,4]`,
grid point `(i,j,k) = (1,0,0)`. -/
theorem shoVfun_flattening_amended_witness :
    shoVfun [0, 1] [0, 2] [0, 4] [1, 1, 1] (1 * (2 * 2) + 0 * 2 + 0)
      = kronBasisPotential [0, 1] [0, 2] [0, 4] [1, 1, 1] (0 * (2 * 2) + 0 * 2 + 1) :=
  (shoVfun_flattening_amended [0, 1] [0, 2] [0, 4] [1, 1, 1] 1 0 0
    (by decide) (by decide) (by decide)).2.2

/-- C8: with one coordinate list serving as all three axes and equal
`params` entries, the potential sampled with `x` outermost (`shoVfun`)
equals, at every flat index, the one sampled in the reversed nesting
(`shoVfunRev`), which is definitionally the potential of the
Kronecker basis grid point; consequently the assembled isotropic
Hamiltonian is the same whichever nesting order the potential uses. -/
theorem isotropic_nesting_invariance (X : List ℚ) (p : ℚ) (v : ℕ)
    (xmin xmax : ℚ) (N : ℕ) (i j : ℕ) :
    shoVfun X X X [p, p, p] v = shoVfunRev X X X [p, p, p] v
    ∧ shoVfunRev X X X [p, p, p] v = kronBasisPotential X X X [p, p, p] v
    ∧ assembleH shoVfun xmin xmax N xmin xmax N xmin xmax N [p, p, p] i j
      = assembleH shoVfunRev xmin xmax N xmin xmax N xmin xmax N [p, p, p] i j := by
  refine ⟨shoVfun_iso X p v, rfl, ?_⟩
  simp only [assembleH]
  split_ifs with h
  · rw [shoVfun_iso]
  · rfl

/-! ### C10: the discrete Fourier pair inverts exactly -/

/-- Orthogonality of the discrete characters: summed over one period,
`exp(i 2 pi m (k - n) / N)` is `N` on the diagonal and `0` off it. -/
lemma exp_sum_orth (N k n : ℕ) (hk : k < N) (hn : n < N) :
    ∑ m ∈ Finset.range N, Complex.exp (Complex.I * 2 * Real.pi * m * ((k : ℂ) - n) / N)
      = if k = n then (N : ℂ) else 0 := by
  have hNne : (N : ℂ) ≠ 0 := Nat.cast_ne_zero.2 (by omega)
  set ζ : ℂ := Complex.exp (Complex.I * 2 * Real.pi * ((k : ℂ) - n) / N) with hζ
  have hterm : ∀ m : ℕ, Complex.exp (Complex.I * 2 * Real.pi * m * ((k : ℂ) - n) / N) = ζ ^ m := by
    intro m
    rw [hζ, ← Complex.exp_nat_mul]
    congr 1
    ring
  rw [Finset.sum_congr rfl (fun m _ => hterm m)]
  by_cases hkn : k = n
  · subst hkn
    have hone : ζ = 1 := by
      rw [hζ]
      simp
    rw [if_pos rfl, hone]
    simp
  · have hπ : (Real.pi : ℂ) ≠ 0 := by
      exact_mod_cast Real.pi_ne_zero
    have hζN : ζ ^ N = 1 := by
      rw [hζ, ← Complex.exp_nat_mul]
      have harg : (N : ℂ) * (Complex.I * 2 * Real.pi * ((k : ℂ) - n) / N)
          = (((k : ℤ) - (n : ℤ) : ℤ) : ℂ) * (2 * Real.pi * Complex.I) := by
        push_cast
        field_simp
        ring
      rw [harg, Complex.exp_int_mul_two_pi_mul_I]
    have hζne : ζ ≠ 1 := by
      intro h1
      rw [hζ] at h1
      obtain ⟨t, ht⟩ := Complex.exp_eq_one_iff.1 h1
      have h2I : (2 * (Real.pi : ℂ) * Complex.I) ≠ 0 := by
        simp [Complex.I_ne_zero, hπ]
      have h3 : (2 * (Real.pi : ℂ) * Complex.I) * ((k : ℂ) - n)
          = (2 * (Real.pi : ℂ) * Complex.I) * ((t : ℂ) * N) := by
        field_simp at ht
        linear_combination ht
      have h4 : ((k : ℂ) - n) = (t : ℂ) * N := mul_left_cancel₀ h2I h3
      have h5 : (k : ℤ) - n = t * N := by exact_mod_cast h4
      have hdvd : (N : ℤ) ∣ ((k : ℤ) - n) := ⟨t, by rw [h5]; ring⟩
      have habs : |(k : ℤ) - n| < N := by
        rw [abs_lt]
        constructor <;> omega
      have h6 := Int.eq_zero_of_abs_lt_dvd hdvd habs
      exact hkn (by omega)
    rw [if_neg hkn, geom_sum_eq hζne, hζN]
    simp


lemma dft_length (X : List ℂ) : (dft X).length = X.length := by
  rw [dft, List.length_map, List.length_range]

lemma idft_length (X : List ℂ) : (idft X).length = X.length := by
  rw [idft, List.length_map, List.length_map, List.length_range]

lemma dft_getD (X : List ℂ) (n : ℕ) (hn : n < X.length) :
    (dft X).getD n 0 = ∑ k ∈ Finset.range X.length,
      X.getD k 0 * Complex.exp (Complex.I * 2 * Real.pi * k * n / X.length) := by
  rw [dft, List.getD_eq_getElem?_getD, List.getElem?_map, List.getElem?_range hn]
  rfl

lemma idft_getD (X : List ℂ) (n : ℕ) (hn : n < X.length) :
    (idft X).getD n 0 = (∑ k ∈ Finset.range X.length,
      X.getD k 0 * Complex.exp (-Complex.I * 2 * Real.pi * k * n / X.length)) / X.length := by
  rw [idft, List.map_map, List.getD_eq_getElem?_getD, List.getElem?_map, List.getElem?_range hn]
  rfl

lemma idft_dft_getD (X : List ℂ) (n : ℕ) (hn : n < X.length) :
    (idft (dft X)).getD n 0 = X.getD n 0 := by
  have hNne : (X.length : ℂ) ≠ 0 := Nat.cast_ne_zero.2 (by omega)
  rw [idft_getD (dft X) n (by rw [dft_length]; exact hn), dft_length]
  have hsum : ∀ m ∈ Finset.range X.length,
      (dft X).getD m 0 * Complex.exp (-Complex.I * 2 * Real.pi * m * n / X.length)
        = ∑ k ∈ Finset.range X.length,
            X.getD k 0 * Complex.exp (Complex.I * 2 * Real.pi * m * ((k : ℂ) - n) / X.length) := by
    intro m hm
    rw [dft_getD X m (Finset.mem_range.1 hm), Finset.sum_mul]
    refine Finset.sum_congr rfl (fun k hk => ?_)
    rw [mul_assoc, ← Complex.exp_add]
    congr 2
    ring
  rw [Finset.sum_congr rfl hsum, Finset.sum_comm]
  have hinner : ∀ k ∈ Finset.range X.length,
      (∑ m ∈ Finset.range X.length,
        X.getD k 0 * Complex.exp (Complex.I * 2 * Real.pi * m * ((k : ℂ) - n) / X.length))
      = if k = n then X.getD k 0 * X.length else 0 := by
    intro k hk
    rw [← Finset.mul_sum, exp_sum_orth X.length k n (Finset.mem_range.1 hk) hn]
    by_cases h : k = n
    · rw [if_pos h, if_pos h]
    · rw [if_neg h, if_neg h, mul_zero]
  rw [Finset.sum_congr rfl hinner, Finset.sum_ite_eq' (Finset.range X.length) n
    (fun k => X.getD k 0 * (X.length : ℂ)), if_pos (Finset.mem_range.2 hn),
    mul_div_assoc, div_self hNne, mul_one]

lemma dft_idft_getD (X : List ℂ) (n : ℕ) (hn : n < X.length) :
    (dft (idft X)).getD n 0 = X.getD n 0 := by
  have hNne : (X.length : ℂ) ≠ 0 := Nat.cast_ne_zero.2 (by omega)
  rw [dft_getD (idft X) n (by rw [idft_length]; exact hn), idft_length]
  have hsum : ∀ m ∈ Finset.range X.length,
      (idft X).getD m 0 * Complex.exp (Complex.I * 2 * Real.pi * m * n / X.length)
        = (∑ k ∈ Finset.range X.length,
            X.getD k 0 * Complex.exp (Complex.I * 2 * Real.pi * m * ((n : ℂ) - k) / X.length))
          / X.length := by
    intro m hm
    rw [idft_getD X m (Finset.mem_range.1 hm), div_mul_eq_mul_div, Finset.sum_mul]
    congr 1
    refine Finset.sum_congr rfl (fun k hk => ?_)
    rw [mul_assoc, ← Complex.exp_add]
    congr 2
    ring
  rw [Finset.sum_congr rfl hsum, ← Finset.sum_div, Finset.sum_comm]
  have hinner : ∀ k ∈ Finset.range X.length,
      (∑ m ∈ Finset.range X.length,
        X.getD k 0 * Complex.exp (Complex.I * 2 * Real.pi * m * ((n : ℂ) - k) / X.length))
      = if n = k then X.getD k 0 * X.length else 0 := by
    intro k hk
    rw [← Finset.mul_sum, exp_sum_orth X.length n k hn (Finset.mem_range.1 hk)]
    by_cases h : n = k
    · rw [if_pos h, if_pos h]
    · rw [if_neg h, if_neg h, mul_zero]
  rw [Finset.sum_congr rfl hinner, Finset.sum_ite_eq (Finset.range X.length) n
    (fun k => X.getD k 0 * (X.length : ℂ)), if_pos (Finset.mem_range.2 hn),
    mul_div_assoc, div_self hNne, mul_one]

/-- C10: with exact complex arithmetic, `idft` is a two-sided inverse of
`dft` for every signal length `N >= 1`, powers of two or not (the code
uses the `+i` convention in `dft` and `-i` with the final `/ N` in
`idft`; the roots-of-unity orthogonality does not care about the sign). -/
theorem dft_idft_inverse (X : List ℂ) (hX : 1 ≤ X.length) :
    idft (dft X) = X ∧ dft (idft X) = X := by
  constructor
  · refine List.ext_getElem (by rw [idft_length, dft_length]) (fun i h1 h2 => ?_)
    rw [← List.getD_eq_getElem (idft (dft X)) 0 h1, ← List.getD_eq_getElem X 0 h2]
    exact idft_dft_getD X i h2
  · refine List.ext_getElem (by rw [dft_length, idft_length]) (fun i h1 h2 => ?_)
    rw [← List.getD_eq_getElem (dft (idft X)) 0 h1, ← List.getD_eq_getElem X 0 h2]
    exact dft_idft_getD X i h2

/-- Witness for C10 on the concrete signal `[1, i]`. -/
theorem dft_idft_inverse_witness :
    idft (dft [1, Complex.I]) = [1, Complex.I] :=
  (dft_idft_inverse [1, Complex.I] (by norm_num)).1

end BlogPosts
